import Mathlib

/-!
Verification of the reconciliation and batched-upload pipeline of the
seller-apis repository (src/seller.py for the Ozon integration and
src/market.py for the Yandex Market integration).

The Python code is shallowly embedded: supplier rows become a `Watch`
structure, the update dictionaries become structures, exceptions become
`Except Err`, and the HTTP submission calls (external collaborators)
become an oracle parameter.  Machine state mutated in place by the source
(the `offer_ids` list consumed by `create_stocks`) is passed and returned
explicitly.
-/

deriving instance DecidableEq for Except

set_option maxRecDepth 16384

namespace SellerApis

/-- Error taxonomy of the spec: `FormatError` for malformed tokens
(Python `ValueError` from `int`), `ConfigError` for an invalid batch size
(Python `ValueError` from `range` with zero step), `TransportError` for a
failed HTTP call. -/
inductive Err where
  | formatError
  | configError
  | transportError
deriving DecidableEq

/-- One row of the supplier feed (`watch_remnants` entry): the source
reads the keys "Код" (code), "Количество" (quantity) and "Цена"
(price), each used through `str(...)`, so all three are strings here. -/
structure Watch where
  code : String
  quantity : String
  price : String
deriving DecidableEq

/-- Numeric value of a digit string, most significant digit first. -/
def digitsVal (cs : List Char) : Nat :=
  cs.foldl (fun n c => 10 * n + (c.toNat - 48)) 0

/-- Character-level worker for `pyInt`. -/
def pyIntList : List Char → Option Int
  | [] => none
  | c :: cs =>
    if c = '-' then
      if cs ≠ [] ∧ cs.all Char.isDigit then some (-(digitsVal cs : Int)) else none
    else if c = '+' then
      if cs ≠ [] ∧ cs.all Char.isDigit then some (digitsVal cs : Int) else none
    else if (c :: cs).all Char.isDigit then some (digitsVal (c :: cs) : Int)
    else none

/-- Python builtin `int(s)` on a string, modelled for plain decimal
numerals: an optional sign followed by one or more digits parses to its
value; anything else (including the empty string) raises `ValueError`,
i.e. returns `none` here. -/
def pyInt (s : String) : Option Int :=
  pyIntList s.toList

/-- The quantity-normalization policy inlined in both `create_stocks`
functions (src/seller.py lines 192-198, src/market.py lines 155-161):
`">10"` becomes 100, `"1"` becomes 0, anything else goes through
`int(...)` and raises `ValueError` (`FormatError`) if unparseable. -/
def normalizeQuantity (count : String) : Except Err Int :=
  if count = ">10" then .ok 100
  else if count = "1" then .ok 0
  else
    match pyInt count with
    | some n => .ok n
    | none => .error .formatError

/-- `price_conversion` of src/seller.py (also imported by src/market.py):
`re.sub("[^0-9]", "", price.split(".")[0])`.  `price.split(".")[0]` is
the longest prefix of the string before the first '.' (the whole string
when there is no '.'), and the `re.sub` keeps exactly the characters in
`[0-9]`. -/
def price_conversion (price : String) : String :=
  String.mk ((price.toList.takeWhile (fun c => c ≠ '.')).filter Char.isDigit)

/-- One Ozon stock-update dictionary built by `create_stocks` in
src/seller.py: `{"offer_id": ..., "stock": ...}`. -/
structure StockS where
  offer_id : String
  stock : Int
deriving DecidableEq

/-- The first, destructive loop of `create_stocks` in src/seller.py
(lines 190-200): iterate the supplier rows in feed order; a row whose
code is in `offer_ids` emits a stock update with its normalized quantity
and removes that code from `offer_ids` (`list.remove` removes the first
occurrence, `List.erase` here).  Returns the matched updates together
with the leftover id list. -/
def create_stocksLoop : List Watch → List String → Except Err (List StockS × List String)
  | [], ids => .ok ([], ids)
  | w :: ws, ids =>
    if w.code ∈ ids then
      match normalizeQuantity w.quantity with
      | .error e => .error e
      | .ok n =>
        match create_stocksLoop ws (ids.erase w.code) with
        | .error e => .error e
        | .ok (st, rest) => .ok (⟨w.code, n⟩ :: st, rest)
    else create_stocksLoop ws ids

/-- `create_stocks` of src/seller.py (lines 173-204): after the
destructive matching loop, every id still left in `offer_ids` gets a
zero stock update appended.  The Python function mutates the caller's
`offer_ids` list; the leftover list is returned explicitly here as the
second component. -/
def create_stocks (watch_remnants : List Watch) (offer_ids : List String) :
    Except Err (List StockS × List String) :=
  match create_stocksLoop watch_remnants offer_ids with
  | .error e => .error e
  | .ok (st, rest) => .ok (st ++ rest.map (fun id => ⟨id, 0⟩), rest)

/-- One Ozon price-update dictionary built by `create_prices` in
src/seller.py. -/
structure PriceS where
  auto_action_enabled : String
  currency_code : String
  offer_id : String
  old_price : String
  price : String
deriving DecidableEq

/-- `create_prices` of src/seller.py (lines 207-233): emit one price
dictionary per supplier row whose code is in `offer_ids`; the id list is
not mutated, and `price_conversion` (which cannot raise on a string) is
stored as the price, so the function is total. -/
def create_prices : List Watch → List String → List PriceS
  | [], _ => []
  | w :: ws, ids =>
    if w.code ∈ ids then
      ⟨"UNKNOWN", "RUB", w.code, "0", price_conversion w.price⟩ :: create_prices ws ids
    else create_prices ws ids

/-- Fuel-driven worker for `chunkList`: the fuel only forces structural
termination and never runs out when it starts at the list length. -/
def chunkListAux (n : Nat) : Nat → List α → List (List α)
  | _, [] => []
  | 0, _ :: _ => []
  | fuel + 1, x :: xs => (x :: xs.take n) :: chunkListAux n fuel (xs.drop n)

/-- Chunks of size `n + 1` taken from the front of a list: the meaning of
`lst[i:i+size]` for `i in range(0, len(lst), size)` when `size = n + 1 > 0`. -/
def chunkList (n : Nat) (l : List α) : List (List α) :=
  chunkListAux n l.length l

theorem chunkListAux_fuel_irrel (n : Nat) :
    ∀ (fuel₁ fuel₂ : Nat) (l : List α), l.length ≤ fuel₁ → l.length ≤ fuel₂ →
      chunkListAux n fuel₁ l = chunkListAux n fuel₂ l := by
  intro fuel₁
  induction fuel₁ with
  | zero =>
    intro fuel₂ l hl₁ hl₂
    cases l with
    | nil => cases fuel₂ <;> rfl
    | cons x xs => simp at hl₁
  | succ fuel₁ ih =>
    intro fuel₂ l hl₁ hl₂
    cases l with
    | nil => cases fuel₂ <;> rfl
    | cons x xs =>
      cases fuel₂ with
      | zero => simp at hl₂
      | succ fuel₂ =>
        simp only [chunkListAux]
        have hd : (xs.drop n).length ≤ xs.length := by
          simp only [List.length_drop]; omega
        simp only [List.length_cons] at hl₁ hl₂
        rw [ih fuel₂ (xs.drop n) (by omega) (by omega)]

theorem chunkListAux_fuel (n : Nat) (fuel : Nat) (l : List α) (h : l.length ≤ fuel) :
    chunkListAux n fuel l = chunkListAux n l.length l :=
  chunkListAux_fuel_irrel n fuel l.length l h (Nat.le_refl _)

theorem chunkList_nil (n : Nat) : chunkList n ([] : List α) = [] := rfl

theorem chunkList_cons (n : Nat) (x : α) (xs : List α) :
    chunkList n (x :: xs) = (x :: xs.take n) :: chunkList n (xs.drop n) := by
  simp only [chunkList, List.length_cons, chunkListAux]
  rw [chunkListAux_fuel n xs.length (xs.drop n)]
  simp only [List.length_drop]; omega

/-- `divide` of src/seller.py (lines 252-268), materialized by its
callers via `list(...)`: `for i in range(0, len(lst), n): yield
lst[i : i + n]`.  `range` with step 0 raises `ValueError` (an invalid
batch size, `ConfigError`); with a negative step and a stop of
`len(lst) ≥ 0` the range is empty, so no chunk is produced; with a
positive step the slices are the contiguous chunks of size `n`. -/
def divide (lst : List α) (n : Int) : Except Err (List (List α)) :=
  if n = 0 then .error .configError
  else if n < 0 then .ok []
  else .ok (chunkList (n.toNat - 1) lst)

theorem pyInt_all_digits (s : String) (hne : s.toList ≠ [])
    (hdig : s.toList.all Char.isDigit = true) :
    pyInt s = some ((digitsVal s.toList : Int)) := by
  rw [pyInt]
  cases hl : s.toList with
  | nil => exact absurd hl hne
  | cons c cs =>
    rw [hl] at hdig
    have hc : c.isDigit = true := by
      simp only [List.all_cons, Bool.and_eq_true] at hdig
      exact hdig.1
    have hm : c ≠ '-' := by intro he; rw [he] at hc; exact absurd hc (by decide)
    have hp : c ≠ '+' := by intro he; rw [he] at hc; exact absurd hc (by decide)
    rw [pyIntList, if_neg hm, if_neg hp, if_pos hdig]

theorem takeWhile_append_dot (q : List Char) :
    ∀ p : List Char, '.' ∉ p →
      (p ++ '.' :: q).takeWhile (fun c => c ≠ '.') = p := by
  intro p
  induction p with
  | nil =>
    intro _
    simp [List.takeWhile_cons]
  | cons a p ih =>
    intro h
    have ha : a ≠ '.' := by
      intro he; exact h (by rw [he]; exact List.mem_cons_self _ _)
    have hp : '.' ∉ p := fun hm => h (List.mem_cons_of_mem _ hm)
    simp only [List.cons_append, List.takeWhile_cons, decide_eq_true_eq]
    rw [if_pos ha, ih hp]

theorem takeWhile_no_dot :
    ∀ l : List Char, '.' ∉ l → l.takeWhile (fun c => c ≠ '.') = l := by
  intro l
  induction l with
  | nil => intro _; rfl
  | cons a l ih =>
    intro h
    have ha : a ≠ '.' := by
      intro he; exact h (by rw [he]; exact List.mem_cons_self _ _)
    have hl : '.' ∉ l := fun hm => h (List.mem_cons_of_mem _ hm)
    simp only [List.takeWhile_cons, decide_eq_true_eq]
    rw [if_pos ha, ih hl]

/-- C3: quantity normalization. The token ">10" normalizes to 100, the
token "1" normalizes to 0, any other all-digit token parses as a base-10
integer (so "7" normalizes to 7), and a non-parseable token such as
"abc" fails with `FormatError`.  This is the quantity policy inlined in
`create_stocks` of both src/seller.py and src/market.py, both embedded
through `normalizeQuantity`. -/
theorem quantity_normalization_policy :
    normalizeQuantity ">10" = .ok 100 ∧
    normalizeQuantity "1" = .ok 0 ∧
    normalizeQuantity "7" = .ok 7 ∧
    normalizeQuantity "abc" = .error .formatError ∧
    ∀ s : String, s ≠ ">10" → s ≠ "1" → s.toList ≠ [] →
      s.toList.all Char.isDigit = true →
      normalizeQuantity s = .ok ((digitsVal s.toList : Int)) := by
  refine ⟨by decide, by decide, by decide, by decide, ?_⟩
  intro s h1 h2 hne hdig
  rw [normalizeQuantity, if_neg h1, if_neg h2, pyInt_all_digits s hne hdig]

/-- Witness for C3: the general all-digits clause evaluated at the
concrete token "444". -/
theorem quantity_normalization_policy_witness :
    normalizeQuantity "444" = .ok 444 := by
  have h := quantity_normalization_policy.2.2.2.2 "444"
    (by decide) (by decide) (by decide) (by decide)
  exact h.trans (by decide)

/-- C4: price normalization truncates the input at the first '.' and
strips every non-digit from the remaining prefix; an input with no '.'
has its entire string scanned for digits.  `price_conversion` is from
src/seller.py lines 236-249. -/
theorem price_conversion_algorithm :
    price_conversion "5\x27990.00 руб." = "5990" ∧
    price_conversion "1,234.50" = "1234" ∧
    price_conversion "100" = "100" ∧
    (∀ (s : String) (p q : List Char), s.toList = p ++ '.' :: q → '.' ∉ p →
      price_conversion s = String.mk (p.filter Char.isDigit)) ∧
    (∀ s : String, '.' ∉ s.toList →
      price_conversion s = String.mk (s.toList.filter Char.isDigit)) := by
  refine ⟨by decide, by decide, by decide, ?_, ?_⟩
  · intro s p q hs hp
    rw [price_conversion, hs, takeWhile_append_dot q p hp]
  · intro s hs
    rw [price_conversion, takeWhile_no_dot s.toList hs]

/-- Witness for C4: the truncation clause applied to the concrete split
of "12.7x" and the no-dot clause applied to "p3q". -/
theorem price_conversion_algorithm_witness :
    price_conversion "12.7x" = "12" ∧ price_conversion "p3q" = "3" := by
  constructor
  · have h := price_conversion_algorithm.2.2.2.1 "12.7x" ['1', '2'] ['7', 'x']
      (by decide) (by decide)
    exact h.trans (by decide)
  · have h := price_conversion_algorithm.2.2.2.2 "p3q" (by decide)
    exact h.trans (by decide)

theorem chunkList_flatten (n : Nat) : ∀ l : List α, (chunkList n l).flatten = l
  | [] => by rw [chunkList_nil]; rfl
  | x :: xs => by
    rw [chunkList_cons]
    simp only [List.flatten_cons]
    rw [chunkList_flatten n (xs.drop n)]
    simp [List.take_append_drop]
termination_by l => l.length
decreasing_by simp [List.length_drop]; omega

theorem chunkList_dropLast_len (n : Nat) :
    ∀ l : List α, ∀ c ∈ (chunkList n l).dropLast, c.length = n + 1
  | [] => by rw [chunkList_nil]; intro c hc; simp at hc
  | x :: xs => by
    rw [chunkList_cons]
    intro c hc
    cases hr : chunkList n (xs.drop n) with
    | nil => rw [hr] at hc; simp at hc
    | cons b bs =>
      rw [hr] at hc
      have hstep : ((x :: xs.take n) :: b :: bs).dropLast
          = (x :: xs.take n) :: (b :: bs).dropLast := rfl
      rw [hstep] at hc
      rcases List.mem_cons.mp hc with hc | hc
      · have hd : xs.drop n ≠ [] := by
          intro h0
          rw [h0, chunkList_nil] at hr
          exact List.noConfusion hr
        have hlen : n < xs.length := by
          by_contra hle
          exact hd (List.drop_eq_nil_of_le (by omega))
        rw [hc]
        simp only [List.length_cons, List.length_take]
        omega
      · have := chunkList_dropLast_len n (xs.drop n)
        rw [hr] at this
        exact this c hc
termination_by l => l.length
decreasing_by simp [List.length_drop]; omega

theorem chunkList_length_le (n : Nat) :
    ∀ l : List α, ∀ c ∈ chunkList n l, c.length ≤ n + 1
  | [] => by rw [chunkList_nil]; intro c hc; simp at hc
  | x :: xs => by
    rw [chunkList_cons]
    intro c hc
    rcases List.mem_cons.mp hc with hc | hc
    · rw [hc]
      simp only [List.length_cons, List.length_take]
      omega
    · exact chunkList_length_le n (xs.drop n) c hc
termination_by l => l.length
decreasing_by simp [List.length_drop]; omega

/-- C6: batch partition law. For every list and positive size, `divide`
succeeds, concatenating its chunks restores the list, every chunk except
possibly the last has length exactly the size, and the empty list yields
no chunks. -/
theorem divide_partition_law {α : Type} (lst : List α) (n : Int) (hn : 0 < n) :
    ∃ chunks, divide lst n = .ok chunks ∧ chunks.flatten = lst ∧
      (∀ c ∈ chunks.dropLast, c.length = n.toNat) ∧ (lst = [] → chunks = []) := by
  refine ⟨chunkList (n.toNat - 1) lst, ?_, chunkList_flatten _ _, ?_, ?_⟩
  · rw [divide, if_neg (by omega), if_neg (by omega)]
  · intro c hc
    have h := chunkList_dropLast_len (n.toNat - 1) lst c hc
    omega
  · intro h
    rw [h, chunkList_nil]

/-- Witness for C6: the partition law evaluated at the list `[1, 2, 3]`
with chunk size 2. -/
theorem divide_partition_law_witness :
    ∃ chunks, divide ([1, 2, 3] : List Nat) (2 : Int) = .ok chunks ∧
      chunks.flatten = [1, 2, 3] ∧
      (∀ c ∈ chunks.dropLast, c.length = (2 : Int).toNat) ∧
      (([1, 2, 3] : List Nat) = [] → chunks = []) :=
  divide_partition_law [1, 2, 3] 2 (by decide)

/-- Counterexample to C7: `divide` applied to a negative size does not
fail; `range(0, len(lst), n)` with a negative step is empty, so the
generator yields no chunk at all, and no `ConfigError` is raised. -/
theorem divide_negative_size_counterexample :
    divide ([1] : List Nat) (-1) = .ok [] ∧
    divide ([1] : List Nat) (-1) ≠ .error Err.configError := by
  refine ⟨by decide, by decide⟩

/-- C7 amended: for size 0 `divide` fails with `ConfigError` (Python
`range` rejects a zero step), while for a strictly negative size it
yields an empty sequence of chunks without failing. -/
theorem divide_nonpositive_size (lst : List α) (n : Int) (hn : n ≤ 0) :
    divide lst n = if n = 0 then .error Err.configError else .ok [] := by
  by_cases h0 : n = 0
  · rw [if_pos h0, divide, if_pos h0]
  · rw [if_neg h0, divide, if_neg h0, if_pos (by omega)]

/-- Witness for C7's amended statement at size 0 on the list `[1]`. -/
theorem divide_nonpositive_size_witness :
    divide ([1] : List Nat) (0 : Int)
      = if (0 : Int) = 0 then .error Err.configError else .ok [] :=
  divide_nonpositive_size [1] 0 (by decide)

theorem create_stocksLoop_basic :
    ∀ (ws : List Watch) (ids : List String) (st : List StockS) (rest : List String),
      create_stocksLoop ws ids = .ok (st, rest) →
      rest.Sublist ids ∧
      ∀ u ∈ st, u.offer_id ∈ ids ∧
        ∃ w ∈ ws, w.code = u.offer_id ∧ normalizeQuantity w.quantity = .ok u.stock := by
  intro ws
  induction ws with
  | nil =>
    intro ids st rest h
    have h2 : (Except.ok (([] : List StockS), ids) : Except Err _) = .ok (st, rest) := h
    simp only [Except.ok.injEq, Prod.mk.injEq] at h2
    obtain ⟨h3, h4⟩ := h2
    subst h3; subst h4
    exact ⟨List.Sublist.refl _, by intro u hu; simp at hu⟩
  | cons w ws ih =>
    intro ids st rest h
    rw [create_stocksLoop] at h
    by_cases hm : w.code ∈ ids
    · rw [if_pos hm] at h
      cases hn : normalizeQuantity w.quantity with
      | error e => rw [hn] at h; exact Except.noConfusion h
      | ok n =>
        rw [hn] at h
        cases hr : create_stocksLoop ws (ids.erase w.code) with
        | error e => rw [hr] at h; exact Except.noConfusion h
        | ok pr =>
          obtain ⟨st2, rest2⟩ := pr
          rw [hr] at h
          have h2 : (Except.ok ((⟨w.code, n⟩ : StockS) :: st2, rest2) : Except Err _)
              = .ok (st, rest) := h
          simp only [Except.ok.injEq, Prod.mk.injEq] at h2
          obtain ⟨h3, h4⟩ := h2
          subst h3; subst h4
          obtain ⟨hsub, hmem⟩ := ih (ids.erase w.code) st2 _ hr
          refine ⟨hsub.trans (List.erase_sublist _ _), ?_⟩
          intro u hu
          rcases List.mem_cons.mp hu with rfl | hu
          · exact ⟨hm, w, List.mem_cons_self _ _, rfl, hn⟩
          · obtain ⟨h5, w2, hw2, hc, hq⟩ := hmem u hu
            exact ⟨List.mem_of_mem_erase h5, w2, List.mem_cons_of_mem _ hw2, hc, hq⟩
    · rw [if_neg hm] at h
      obtain ⟨hsub, hmem⟩ := ih ids st rest h
      refine ⟨hsub, ?_⟩
      intro u hu
      obtain ⟨h5, w2, hw2, hc, hq⟩ := hmem u hu
      exact ⟨h5, w2, List.mem_cons_of_mem _ hw2, hc, hq⟩

theorem create_stocksLoop_nodup :
    ∀ (ws : List Watch) (ids : List String) (st : List StockS) (rest : List String),
      ids.Nodup → create_stocksLoop ws ids = .ok (st, rest) →
      (∀ u ∈ st, u.offer_id ∉ rest) ∧
      (st.map StockS.offer_id).Nodup ∧
      (∀ i ∈ ids, i ∈ rest ∨ ∃ u ∈ st, u.offer_id = i) ∧
      (∀ i ∈ rest, ∀ w ∈ ws, w.code ≠ i) := by
  intro ws
  induction ws with
  | nil =>
    intro ids st rest hnd h
    have h2 : (Except.ok (([] : List StockS), ids) : Except Err _) = .ok (st, rest) := h
    simp only [Except.ok.injEq, Prod.mk.injEq] at h2
    obtain ⟨h3, h4⟩ := h2
    subst h3; subst h4
    refine ⟨by intro u hu; simp at hu, List.nodup_nil, ?_, ?_⟩
    · intro i hi; exact Or.inl hi
    · intro i _ w hw; simp at hw
  | cons w ws ih =>
    intro ids st rest hnd h
    rw [create_stocksLoop] at h
    by_cases hm : w.code ∈ ids
    · rw [if_pos hm] at h
      cases hn : normalizeQuantity w.quantity with
      | error e => rw [hn] at h; exact Except.noConfusion h
      | ok n =>
        rw [hn] at h
        cases hr : create_stocksLoop ws (ids.erase w.code) with
        | error e => rw [hr] at h; exact Except.noConfusion h
        | ok pr =>
          obtain ⟨st2, rest2⟩ := pr
          rw [hr] at h
          have h2 : (Except.ok ((⟨w.code, n⟩ : StockS) :: st2, rest2) : Except Err _)
              = .ok (st, rest) := h
          simp only [Except.ok.injEq, Prod.mk.injEq] at h2
          obtain ⟨h3, h4⟩ := h2
          subst h3; subst h4
          have hnd2 : (ids.erase w.code).Nodup := hnd.erase _
          have hwe : w.code ∉ ids.erase w.code := hnd.not_mem_erase
          obtain ⟨hsub2, hmem2⟩ := create_stocksLoop_basic ws (ids.erase w.code) st2 _ hr
          obtain ⟨b1, b2, b3, b4⟩ := ih (ids.erase w.code) st2 _ hnd2 hr
          refine ⟨?_, ?_, ?_, ?_⟩
          · intro u hu
            rcases List.mem_cons.mp hu with rfl | hu
            · intro hin
              exact hwe (hsub2.subset hin)
            · exact b1 u hu
          · rw [List.map_cons, List.nodup_cons]
            refine ⟨?_, b2⟩
            intro hin
            obtain ⟨u, hu, he⟩ := List.mem_map.mp hin
            have he2 : u.offer_id = w.code := he
            exact hwe (he2 ▸ (hmem2 u hu).1)
          · intro i hi
            by_cases he : i = w.code
            · exact Or.inr ⟨⟨w.code, n⟩, List.mem_cons_self _ _, he.symm⟩
            · rcases b3 i ((List.mem_erase_of_ne he).mpr hi) with h5 | ⟨u, hu, h5⟩
              · exact Or.inl h5
              · exact Or.inr ⟨u, List.mem_cons_of_mem _ hu, h5⟩
          · intro i hi w2 hw2
            rcases List.mem_cons.mp hw2 with rfl | hw2
            · intro he
              exact hwe (he ▸ hsub2.subset hi)
            · exact b4 i hi w2 hw2
    · rw [if_neg hm] at h
      obtain ⟨hsub2, _⟩ := create_stocksLoop_basic ws ids st rest h
      obtain ⟨b1, b2, b3, b4⟩ := ih ids st rest hnd h
      refine ⟨b1, b2, b3, ?_⟩
      intro i hi w2 hw2
      rcases List.mem_cons.mp hw2 with rfl | hw2
      · intro he
        exact hm (he ▸ hsub2.subset hi)
      · exact b4 i hi w2 hw2

theorem countP_eq_one_of_nodup_mem {l : List String} {a : String}
    (hnd : l.Nodup) (ha : a ∈ l) :
    l.countP (fun x => decide (x = a)) = 1 := by
  induction l with
  | nil => simp at ha
  | cons b l ih =>
    rcases List.mem_cons.mp ha with rfl | ha2
    · rw [List.countP_cons_of_pos _ _ (by simp)]
      have hb : a ∉ l := (List.nodup_cons.mp hnd).1
      rw [List.countP_eq_zero.mpr ?_]
      · intro x hx
        simp only [decide_eq_true_eq]
        intro he
        rw [he] at hx
        exact hb hx
    · have hb : b ≠ a := by
        intro he
        exact (List.nodup_cons.mp hnd).1 (he ▸ ha2)
      rw [List.countP_cons_of_neg _ _ (by simp [hb])]
      exact ih (List.nodup_cons.mp hnd).2 ha2

theorem seller_stocks_completeness
    (remnants : List Watch) (ids : List String) (stocks : List StockS)
    (rest : List String) (hnd : ids.Nodup)
    (h : create_stocks remnants ids = .ok (stocks, rest)) :
    (∀ i ∈ ids, stocks.countP (fun u => decide (u.offer_id = i)) = 1) ∧
    (∀ u ∈ stocks, u.offer_id ∈ ids) ∧
    (∀ u ∈ stocks,
      (∃ w ∈ remnants, w.code = u.offer_id ∧
        normalizeQuantity w.quantity = .ok u.stock) ∨
      ((∀ w ∈ remnants, w.code ≠ u.offer_id) ∧ u.stock = 0)) := by
  rw [create_stocks] at h
  cases hr : create_stocksLoop remnants ids with
  | error e => rw [hr] at h; exact Except.noConfusion h
  | ok pr =>
    obtain ⟨st, rest0⟩ := pr
    rw [hr] at h
    have h2 : (Except.ok (st ++ rest0.map (fun i => (⟨i, 0⟩ : StockS)), rest0)
        : Except Err _) = .ok (stocks, rest) := h
    simp only [Except.ok.injEq, Prod.mk.injEq] at h2
    obtain ⟨h3, h4⟩ := h2
    subst h3; subst h4
    obtain ⟨hsub, hbas⟩ := create_stocksLoop_basic remnants ids st _ hr
    obtain ⟨b1, b2, b3, b4⟩ := create_stocksLoop_nodup remnants ids st _ hnd hr
    have hrnd : rest0.Nodup := hnd.sublist hsub
    refine ⟨?_, ?_, ?_⟩
    · intro i hi
      rw [List.countP_append]
      rcases b3 i hi with hin | ⟨u, hu, he⟩
      · have hz : st.countP (fun u => decide (u.offer_id = i)) = 0 := by
          rw [List.countP_eq_zero]
          intro u hu
          simp only [decide_eq_true_eq]
          intro he
          exact b1 u hu (he ▸ hin)
        have ho : (rest0.map (fun i => (⟨i, 0⟩ : StockS))).countP
            (fun u => decide (u.offer_id = i)) = 1 := by
          rw [List.countP_map]
          have : ((fun u : StockS => decide (u.offer_id = i)) ∘
              (fun j => (⟨j, 0⟩ : StockS))) = fun x => decide (x = i) := rfl
          rw [this]
          exact countP_eq_one_of_nodup_mem hrnd hin
        omega
      · have ho : st.countP (fun u => decide (u.offer_id = i)) = 1 := by
          have hmap : st.countP (fun u => decide (u.offer_id = i))
              = (st.map StockS.offer_id).countP (fun x => decide (x = i)) := by
            rw [List.countP_map]; rfl
          rw [hmap]
          exact countP_eq_one_of_nodup_mem b2
            (List.mem_map.mpr ⟨u, hu, he⟩)
        have hz : (rest0.map (fun i => (⟨i, 0⟩ : StockS))).countP
            (fun u => decide (u.offer_id = i)) = 0 := by
          rw [List.countP_eq_zero]
          intro v hv
          obtain ⟨j, hj, hje⟩ := List.mem_map.mp hv
          simp only [decide_eq_true_eq]
          intro hvi
          have hji : j = i := by
            have : v.offer_id = j := by rw [← hje]
            rw [← this, hvi]
          exact b1 u hu (he ▸ (hji ▸ hj))
        omega
    · intro u hu
      rcases List.mem_append.mp hu with hu | hu
      · exact (hbas u hu).1
      · obtain ⟨j, hj, hje⟩ := List.mem_map.mp hu
        have : u.offer_id = j := by rw [← hje]
        rw [this]
        exact hsub.subset hj
    · intro u hu
      rcases List.mem_append.mp hu with hu | hu
      · obtain ⟨_, w, hw, hc, hq⟩ := hbas u hu
        exact Or.inl ⟨w, hw, hc, hq⟩
      · obtain ⟨j, hj, hje⟩ := List.mem_map.mp hu
        refine Or.inr ⟨?_, ?_⟩
        · intro w hw he
          have h5 : u.offer_id = j := by rw [← hje]
          exact b4 j hj w hw (h5 ▸ he)
        · rw [← hje]

theorem create_prices_mem :
    ∀ (ws : List Watch) (ids : List String) (p : PriceS),
      p ∈ create_prices ws ids → ∃ w ∈ ws, w.code = p.offer_id := by
  intro ws
  induction ws with
  | nil => intro ids p hp; simp [create_prices] at hp
  | cons w ws ih =>
    intro ids p hp
    rw [create_prices] at hp
    by_cases hm : w.code ∈ ids
    · rw [if_pos hm] at hp
      rcases List.mem_cons.mp hp with rfl | hp
      · exact ⟨w, List.mem_cons_self _ _, rfl⟩
      · obtain ⟨w2, hw2, he⟩ := ih ids p hp
        exact ⟨w2, List.mem_cons_of_mem _ hw2, he⟩
    · rw [if_neg hm] at hp
      obtain ⟨w2, hw2, he⟩ := ih ids p hp
      exact ⟨w2, List.mem_cons_of_mem _ hw2, he⟩

theorem create_prices_erase_length :
    ∀ (ws : List Watch) (ids : List String) (a : String),
      (∀ w ∈ ws, w.code ≠ a) →
      (create_prices ws (ids.erase a)).length = (create_prices ws ids).length := by
  intro ws
  induction ws with
  | nil => intro ids a _; rfl
  | cons w ws ih =>
    intro ids a hne
    have hw : w.code ≠ a := hne w (List.mem_cons_self _ _)
    have hws : ∀ w2 ∈ ws, w2.code ≠ a :=
      fun w2 hw2 => hne w2 (List.mem_cons_of_mem _ hw2)
    have hiff : w.code ∈ ids.erase a ↔ w.code ∈ ids := List.mem_erase_of_ne hw
    simp only [create_prices]
    by_cases hm : w.code ∈ ids
    · rw [if_pos hm, if_pos (hiff.mpr hm)]
      simp only [List.length_cons]
      rw [ih ids a hws]
    · rw [if_neg hm, if_neg (fun hc => hm (hiff.mp hc))]
      exact ih ids a hws

theorem create_stocksLoop_length_eq_prices :
    ∀ (ws : List Watch) (ids : List String) (st : List StockS) (rest : List String),
      (ws.map Watch.code).Nodup → create_stocksLoop ws ids = .ok (st, rest) →
      st.length = (create_prices ws ids).length := by
  intro ws
  induction ws with
  | nil =>
    intro ids st rest _ h
    have h2 : (Except.ok (([] : List StockS), ids) : Except Err _) = .ok (st, rest) := h
    simp only [Except.ok.injEq, Prod.mk.injEq] at h2
    obtain ⟨h3, _⟩ := h2
    subst h3
    rfl
  | cons w ws ih =>
    intro ids st rest hnd h
    have hw : w.code ∉ ws.map Watch.code := (List.nodup_cons.mp hnd).1
    have hnd2 : (ws.map Watch.code).Nodup := (List.nodup_cons.mp hnd).2
    have hws : ∀ w2 ∈ ws, w2.code ≠ w.code := by
      intro w2 hw2 he
      exact hw (he ▸ List.mem_map.mpr ⟨w2, hw2, rfl⟩)
    rw [create_stocksLoop] at h
    rw [create_prices]
    by_cases hm : w.code ∈ ids
    · rw [if_pos hm] at h
      rw [if_pos hm]
      cases hn : normalizeQuantity w.quantity with
      | error e => rw [hn] at h; exact Except.noConfusion h
      | ok n =>
        rw [hn] at h
        cases hr : create_stocksLoop ws (ids.erase w.code) with
        | error e => rw [hr] at h; exact Except.noConfusion h
        | ok pr =>
          obtain ⟨st2, rest2⟩ := pr
          rw [hr] at h
          have h2 : (Except.ok ((⟨w.code, n⟩ : StockS) :: st2, rest2) : Except Err _)
              = .ok (st, rest) := h
          simp only [Except.ok.injEq, Prod.mk.injEq] at h2
          obtain ⟨h3, _⟩ := h2
          subst h3
          simp only [List.length_cons]
          rw [ih (ids.erase w.code) st2 _ hnd2 hr,
            create_prices_erase_length ws ids w.code hws]
    · rw [if_neg hm] at h
      rw [if_neg hm]
      exact ih ids st rest hnd2 h

/-- Counterexample to C2: with a duplicated supplier item code the
destructive stock pass matches the catalog id once (`list.remove`
consumes it), but `create_prices`, which never removes ids from its own
copy of the catalog list, emits a price update for both occurrences: one
matched stock update versus two price updates. -/
theorem reconciliation_exclusivity_counterexample :
    create_stocks [⟨"A", "5", "7"⟩, ⟨"A", "6", "8"⟩] ["A"]
      = .ok ([⟨"A", 5⟩], []) ∧
    (create_prices [⟨"A", "5", "7"⟩, ⟨"A", "6", "8"⟩] ["A"]).length = 2 ∧
    (create_prices [⟨"A", "5", "7"⟩, ⟨"A", "6", "8"⟩] ["A"]).length ≠
      (match create_stocks [⟨"A", "5", "7"⟩, ⟨"A", "6", "8"⟩] ["A"] with
        | .ok (st, rest) => st.length - rest.length
        | .error _ => 0) := by
  refine ⟨by decide, by decide, by decide⟩

/-- C2 amended: for supplier record lists with pairwise-distinct item
codes (each reconciliation pass given its own copy of the catalog ids),
the number of price updates produced by `create_prices` equals the
number of matched stock updates produced by `create_stocks` (the stock
updates beyond the zero-filled leftovers), and every price update comes
from a supplier record, so no price update is emitted for an offer id
that has no supplier record. -/
theorem reconciliation_exclusivity
    (remnants : List Watch) (ids : List String) (stocks : List StockS)
    (rest : List String) (hnd : (remnants.map Watch.code).Nodup)
    (h : create_stocks remnants ids = .ok (stocks, rest)) :
    (create_prices remnants ids).length = stocks.length - rest.length ∧
    ∀ p ∈ create_prices remnants ids, ∃ w ∈ remnants, w.code = p.offer_id := by
  refine ⟨?_, fun p hp => create_prices_mem remnants ids p hp⟩
  rw [create_stocks] at h
  cases hr : create_stocksLoop remnants ids with
  | error e => rw [hr] at h; exact Except.noConfusion h
  | ok pr =>
    obtain ⟨st, rest0⟩ := pr
    rw [hr] at h
    have h2 : (Except.ok (st ++ rest0.map (fun i => (⟨i, 0⟩ : StockS)), rest0)
        : Except Err _) = .ok (stocks, rest) := h
    simp only [Except.ok.injEq, Prod.mk.injEq] at h2
    obtain ⟨h3, h4⟩ := h2
    subst h3; subst h4
    rw [← create_stocksLoop_length_eq_prices remnants ids st _ hnd hr]
    simp only [List.length_append, List.length_map]
    omega

/-- Witness for C2's amended statement: two distinct supplier codes, one
matching the catalog and one unknown. -/
theorem reconciliation_exclusivity_witness :
    (create_prices [⟨"A", "5", "7"⟩, ⟨"Z", "6", "8"⟩] ["A", "B"]).length
      = ([⟨"A", 5⟩, ⟨"B", 0⟩] : List StockS).length - ["B"].length ∧
    ∀ p ∈ create_prices [⟨"A", "5", "7"⟩, ⟨"Z", "6", "8"⟩] ["A", "B"],
      ∃ w ∈ [(⟨"A", "5", "7"⟩ : Watch), ⟨"Z", "6", "8"⟩], w.code = p.offer_id :=
  reconciliation_exclusivity [⟨"A", "5", "7"⟩, ⟨"Z", "6", "8"⟩] ["A", "B"]
    [⟨"A", 5⟩, ⟨"B", 0⟩] ["B"] (by decide) (by decide)

/-- One Yandex Market stock-update dictionary built by `create_stocks`
in src/market.py: `{"sku": ..., "warehouseId": ..., "items": [{"count":
..., "type": "FIT", "updatedAt": ...}]}`; the single-entry `items` list
is flattened into the three fields `count`, `type`, `updatedAt`. -/
structure StockM where
  sku : String
  warehouseId : String
  count : Int
  type : String
  updatedAt : String
deriving DecidableEq

/-- The destructive matching loop of `create_stocks` in src/market.py
(lines 153-175): same algorithm as the Ozon loop, with the Yandex
record schema; `date` is the `datetime.datetime.utcnow()` timestamp
string computed once before the loop (an external clock value, passed
as a parameter). -/
def create_stocksLoopM (warehouse_id date : String) :
    List Watch → List String → Except Err (List StockM × List String)
  | [], ids => .ok ([], ids)
  | w :: ws, ids =>
    if w.code ∈ ids then
      match normalizeQuantity w.quantity with
      | .error e => .error e
      | .ok n =>
        match create_stocksLoopM warehouse_id date ws (ids.erase w.code) with
        | .error e => .error e
        | .ok (st, rest) => .ok (⟨w.code, warehouse_id, n, "FIT", date⟩ :: st, rest)
    else create_stocksLoopM warehouse_id date ws ids

/-- `create_stocks` of src/market.py (lines 133-191): destructive
matching loop, then a zero-count update for every leftover id. -/
def create_stocksM (watch_remnants : List Watch) (offer_ids : List String)
    (warehouse_id date : String) : Except Err (List StockM × List String) :=
  match create_stocksLoopM warehouse_id date watch_remnants offer_ids with
  | .error e => .error e
  | .ok (st, rest) =>
    .ok (st ++ rest.map (fun id => ⟨id, warehouse_id, 0, "FIT", date⟩), rest)

/-- One Yandex Market price-update dictionary built by `create_prices`
in src/market.py (the commented-out fields of the source dict are
omitted). -/
structure PriceM where
  id : String
  value : Int
  currencyId : String
deriving DecidableEq

/-- `create_prices` of src/market.py (lines 194-225): emit one price per
supplier row whose code is in `offer_ids`, with
`int(price_conversion(...))` as the value — the `int` call raises
`ValueError` (`FormatError`) when the converted string is empty. -/
def create_pricesM : List Watch → List String → Except Err (List PriceM)
  | [], _ => .ok []
  | w :: ws, ids =>
    if w.code ∈ ids then
      match pyInt (price_conversion w.price) with
      | none => .error .formatError
      | some v =>
        match create_pricesM ws ids with
        | .error e => .error e
        | .ok ps => .ok (⟨w.code, v, "RUR"⟩ :: ps)
    else create_pricesM ws ids

/-- Counterexample to C5: for ".99" the Ozon-side `price_conversion`
(src/seller.py) does not fail — it returns the empty string, and the
Ozon `create_prices` happily embeds that empty string as the price
value. -/
theorem price_empty_prefix_counterexample :
    price_conversion ".99" = "" ∧
    create_prices [⟨"A", "2", ".99"⟩] ["A"]
      = [⟨"UNKNOWN", "RUB", "A", "0", ""⟩] := by
  refine ⟨by decide, by decide⟩

/-- C5 amended: when the prefix before the first '.' contains no digit,
`price_conversion` returns the empty string (no failure on the Ozon
path), and only the Yandex Market `create_prices`, which applies
`int(...)` to the result, fails with `FormatError`. -/
theorem price_empty_prefix_market_fails
    (s q code : String)
    (hs : (s.toList.takeWhile (fun c => c ≠ '.')).filter Char.isDigit = []) :
    price_conversion s = "" ∧
    create_pricesM [⟨code, q, s⟩] [code] = .error .formatError := by
  have hpc : price_conversion s = "" := by
    rw [price_conversion, hs]
  refine ⟨hpc, ?_⟩
  rw [create_pricesM, if_pos (List.mem_cons_self _ _)]
  rw [show (⟨code, q, s⟩ : Watch).price = s from rfl, hpc]
  rfl

/-- Witness for C5's amended statement at the spec's example ".99". -/
theorem price_empty_prefix_market_fails_witness :
    price_conversion ".99" = "" ∧
    create_pricesM [⟨"A", "2", ".99"⟩] ["A"] = .error .formatError :=
  price_empty_prefix_market_fails ".99" "2" "A" (by decide)

/-- Outcome of a `for batch in list(divide(...)): submit(batch)` loop:
the submission calls actually issued, in order (including the failing
one), and the error that aborted the loop, if any. -/
structure BatchRun (α : Type) where
  calls : List (List α)
  error : Option Err
deriving DecidableEq

/-- Submission loop starting at call index `k`: each iteration performs
one submission (modelled by the oracle `submit`, one outcome per call
index); an exception aborts the loop immediately and propagates, so no
batch after the failing one is ever submitted and nothing is retried. -/
def runBatchesFrom (submit : Nat → Except Err Unit) :
    Nat → List (List α) → BatchRun α
  | _, [] => ⟨[], none⟩
  | k, b :: bs =>
    match submit k with
    | .ok _ =>
      let r := runBatchesFrom submit (k + 1) bs
      ⟨b :: r.calls, r.error⟩
    | .error e => ⟨[b], some e⟩

/-- The submission loop of the upload functions, starting at the first
call. -/
def runBatches (submit : Nat → Except Err Unit) (batches : List (List α)) :
    BatchRun α :=
  runBatchesFrom submit 0 batches

/-- Result of the Ozon `upload_stocks` (src/seller.py lines 294-317):
the computed batches, the submission-loop trace, the `not_empty` filter
of updates with non-zero stock, and the full update list. -/
structure UploadStocksS where
  batches : List (List StockS)
  run : BatchRun StockS
  notEmpty : List StockS
  stocks : List StockS
deriving DecidableEq

/-- `upload_stocks` of src/seller.py (lines 294-317): fetch the catalog
ids (external, passed in), build the stock updates, submit them in
chunks of 100, then return the non-zero subset and the full list.  A
submission failure propagates and nothing after it runs. -/
def upload_stocksS (watch_remnants : List Watch) (offer_ids : List String)
    (submit : Nat → Except Err Unit) : Except Err UploadStocksS :=
  match create_stocks watch_remnants offer_ids with
  | .error e => .error e
  | .ok (stocks, _) =>
    match divide stocks 100 with
    | .error e => .error e
    | .ok batches =>
      let run := runBatches submit batches
      match run.error with
      | some e => .error e
      | none => .ok ⟨batches, run, stocks.filter (fun u => u.stock ≠ 0), stocks⟩

/-- Result of the Ozon `upload_prices` (src/seller.py lines 271-291). -/
structure UploadPricesS where
  batches : List (List PriceS)
  run : BatchRun PriceS
  prices : List PriceS
deriving DecidableEq

/-- `upload_prices` of src/seller.py (lines 271-291): fetch a fresh
catalog id list (external, passed in), build the price updates, submit
them in chunks of 1000, and return the full price list. -/
def upload_pricesS (watch_remnants : List Watch) (offer_ids : List String)
    (submit : Nat → Except Err Unit) : Except Err UploadPricesS :=
  let prices := create_prices watch_remnants offer_ids
  match divide prices 1000 with
  | .error e => .error e
  | .ok batches =>
    let run := runBatches submit batches
    match run.error with
    | some e => .error e
    | none => .ok ⟨batches, run, prices⟩

/-- Result of the Yandex Market `upload_stocks` (src/market.py lines
249-271). -/
structure UploadStocksM where
  batches : List (List StockM)
  run : BatchRun StockM
  notEmpty : List StockM
  stocks : List StockM
deriving DecidableEq

/-- `upload_stocks` of src/market.py (lines 249-271): build the Yandex
stock updates and submit them in chunks of 2000; `not_empty` filters the
updates whose single item has non-zero count. -/
def upload_stocksM (watch_remnants : List Watch) (offer_ids : List String)
    (warehouse_id date : String) (submit : Nat → Except Err Unit) :
    Except Err UploadStocksM :=
  match create_stocksM watch_remnants offer_ids warehouse_id date with
  | .error e => .error e
  | .ok (stocks, _) =>
    match divide stocks 2000 with
    | .error e => .error e
    | .ok batches =>
      let run := runBatches submit batches
      match run.error with
      | some e => .error e
      | none => .ok ⟨batches, run, stocks.filter (fun u => u.count ≠ 0), stocks⟩

/-- Result of the Yandex Market `upload_prices` (src/market.py lines
228-246). -/
structure UploadPricesM where
  batches : List (List PriceM)
  run : BatchRun PriceM
  prices : List PriceM
deriving DecidableEq

/-- `upload_prices` of src/market.py (lines 228-246): build the Yandex
price updates (which can fail on a malformed price) and submit them in
chunks of 500. -/
def upload_pricesM (watch_remnants : List Watch) (offer_ids : List String)
    (submit : Nat → Except Err Unit) : Except Err UploadPricesM :=
  match create_pricesM watch_remnants offer_ids with
  | .error e => .error e
  | .ok prices =>
    match divide prices 500 with
    | .error e => .error e
    | .ok batches =>
      let run := runBatches submit batches
      match run.error with
      | some e => .error e
      | none => .ok ⟨batches, run, prices⟩

/-- Result of the scripted Ozon top-level flow (`main` of
src/seller.py). -/
structure MainRunS where
  stocks : List StockS
  stockBatches : List (List StockS)
  stockRun : BatchRun StockS
  prices : List PriceS
  priceBatches : List (List PriceS)
  priceRun : BatchRun PriceS
deriving DecidableEq

/-- `main` of src/seller.py (lines 320-341): fetch the catalog ids once
(external, passed in), build and submit stock updates in chunks of 100
— `create_stocks` mutates `offer_ids`, so the price step afterwards
sees only the leftover ids — then build and submit price updates in
chunks of 900.  The `try/except` surfaces the first error. -/
def main_flowS (watch_remnants : List Watch) (offer_ids : List String)
    (submitStocks submitPrices : Nat → Except Err Unit) : Except Err MainRunS :=
  match create_stocks watch_remnants offer_ids with
  | .error e => .error e
  | .ok (stocks, rest) =>
    match divide stocks 100 with
    | .error e => .error e
    | .ok sb =>
      let runS := runBatches submitStocks sb
      match runS.error with
      | some e => .error e
      | none =>
        let prices := create_prices watch_remnants rest
        match divide prices 900 with
        | .error e => .error e
        | .ok pb =>
          let runP := runBatches submitPrices pb
          match runP.error with
          | some e => .error e
          | none => .ok ⟨stocks, sb, runS, prices, pb, runP⟩

theorem runBatchesFrom_all_ok (submit : Nat → Except Err Unit)
    (h : ∀ i, submit i = .ok ()) :
    ∀ (k : Nat) (bs : List (List α)), runBatchesFrom submit k bs = ⟨bs, none⟩ := by
  intro k bs
  induction bs generalizing k with
  | nil => rfl
  | cons b bs ih =>
    rw [runBatchesFrom, h k]
    simp only [ih (k + 1)]

theorem runBatchesFrom_abort (submit : Nat → Except Err Unit) :
    ∀ (bs : List (List α)) (k j : Nat) (e : Err), j < bs.length →
      (∀ i, i < j → submit (k + i) = .ok ()) → submit (k + j) = .error e →
      runBatchesFrom submit k bs = ⟨bs.take (j + 1), some e⟩ := by
  intro bs
  induction bs with
  | nil => intro k j e hj _ _; simp at hj
  | cons b bs ih =>
    intro k j e hj hok hfail
    cases j with
    | zero =>
      have hk : submit k = .error e := by simpa using hfail
      rw [runBatchesFrom, hk]
      rfl
    | succ j =>
      have hk : submit k = .ok () := by simpa using hok 0 (Nat.succ_pos j)
      rw [runBatchesFrom, hk]
      have hok2 : ∀ i, i < j → submit (k + 1 + i) = .ok () := by
        intro i hi
        have h2 := hok (i + 1) (by omega)
        rw [show k + (i + 1) = k + 1 + i by omega] at h2
        exact h2
      have hfail2 : submit (k + 1 + j) = .error e := by
        rw [show k + 1 + j = k + (j + 1) by omega]
        exact hfail
      rw [ih (k + 1) j e (by simpa using hj) hok2 hfail2]
      rfl

theorem chunkList_map_length_congr (n : Nat) :
    ∀ (l₁ : List α) (l₂ : List β), l₁.length = l₂.length →
      (chunkList n l₁).map List.length = (chunkList n l₂).map List.length
  | [], l₂ => by
    intro h
    have h2 : l₂ = [] := List.eq_nil_of_length_eq_zero h.symm
    rw [h2]
    rfl
  | x :: xs, l₂ => by
    intro h
    cases l₂ with
    | nil => simp at h
    | cons y ys =>
      rw [chunkList_cons, chunkList_cons]
      simp only [List.map_cons, List.length_cons, List.length_take]
      have hxy : xs.length = ys.length := by
        simp only [List.length_cons] at h
        omega
      rw [hxy]
      have hrec := chunkList_map_length_congr n (xs.drop n) (ys.drop n)
        (by simp only [List.length_drop, hxy])
      rw [hrec]
termination_by l₁ _ => l₁.length
decreasing_by simp [List.length_drop]; omega

theorem divide_chunk_length_le {α : Type} (l : List α) (n : Int) (hn : 0 < n)
    (chunks : List (List α)) (h : divide l n = .ok chunks) :
    ∀ c ∈ chunks, c.length ≤ n.toNat := by
  rw [divide, if_neg (by omega), if_neg (by omega)] at h
  have hc : chunkList (n.toNat - 1) l = chunks := by
    injection h
  intro c hcm
  rw [← hc] at hcm
  have h2 := chunkList_length_le (n.toNat - 1) l c hcm
  omega

/-- C8: abort on submission failure.  For every update list and batch
ceiling, the submission loop issues the partitions sequentially in
partition order; if every call succeeds all partitions are submitted,
and if the k-th call fails, the calls issued are exactly the partitions
up to and including the k-th — nothing later is submitted, nothing is
retried — and the error propagates.  250 stock updates with ceiling 100
partition into exactly 3 batches of sizes 100, 100, 50. -/
theorem upload_abort_on_failure
    (updates : List StockS) (n : Int) (batches : List (List StockS))
    (submit : Nat → Except Err Unit) (k : Nat) (e : Err)
    (hn : 0 < n) (hdiv : divide updates n = .ok batches) :
    ((∀ i, submit i = .ok ()) → runBatches submit batches = ⟨batches, none⟩) ∧
    (k < batches.length → (∀ i, i < k → submit i = .ok ()) →
      submit k = .error e →
      runBatches submit batches = ⟨batches.take (k + 1), some e⟩) ∧
    (updates.length = 250 → n = 100 → batches.map List.length = [100, 100, 50]) := by
  refine ⟨?_, ?_, ?_⟩
  · intro hok
    exact runBatchesFrom_all_ok submit hok 0 batches
  · intro hk hok hfail
    exact runBatchesFrom_abort submit batches 0 k e hk
      (fun i hi => by simpa using hok i hi) (by simpa using hfail)
  · intro h250 hn100
    subst hn100
    rw [divide, if_neg (by omega), if_neg (by omega)] at hdiv
    have hb : chunkList (Int.toNat 100 - 1) updates = batches := by
      injection hdiv
    rw [← hb]
    rw [chunkList_map_length_congr (Int.toNat 100 - 1) updates
      (List.replicate 250 (⟨"x", 1⟩ : StockS)) (by simp [h250])]
    decide

/-- A 250-element stock-update list for the C8 scenario. -/
def stocks250 : List StockS :=
  List.replicate 250 ⟨"x", 1⟩

/-- Submission oracle whose second call (index 1) fails with a transport
error. -/
def failAtSecond : Nat → Except Err Unit :=
  fun i => if i = 1 then .error .transportError else .ok ()

/-- Submission oracle that always succeeds. -/
def submitOk : Nat → Except Err Unit :=
  fun _ => .ok ()

/-- Witness for C8: 250 stock updates at ceiling 100 give batches of
sizes 100, 100, 50; with every call succeeding all three are submitted;
with the second call failing, only the first two are issued and the
transport error propagates. -/
theorem upload_abort_on_failure_witness :
    (chunkList 99 stocks250).map List.length = [100, 100, 50] ∧
    runBatches submitOk (chunkList 99 stocks250)
      = ⟨chunkList 99 stocks250, none⟩ ∧
    runBatches failAtSecond (chunkList 99 stocks250)
      = ⟨(chunkList 99 stocks250).take 2, some .transportError⟩ := by
  have h := upload_abort_on_failure stocks250 100 (chunkList 99 stocks250)
    failAtSecond 1 .transportError (by decide) rfl
  have h2 := upload_abort_on_failure stocks250 100 (chunkList 99 stocks250)
    submitOk 0 .transportError (by decide) rfl
  refine ⟨h.2.2 (by decide) rfl, h2.1 (fun i => rfl), ?_⟩
  refine h.2.1 (by decide) ?_ rfl
  intro i hi
  have h0 : i = 0 := by omega
  rw [h0]
  rfl

/-- C9: configured batch ceilings.  The Ozon integration submits stock
updates in batches of at most 100 and price updates in batches of at
most 1000 in its reusable upload function but at most 900 in its
scripted top-level flow; the Yandex Market integration submits stock
updates in batches of at most 2000 and price updates in batches of at
most 500. -/
theorem configured_batch_ceilings :
    (∀ (r : List Watch) (i : List String) (sub : Nat → Except Err Unit)
        (res : UploadStocksS), upload_stocksS r i sub = .ok res →
        ∀ b ∈ res.batches, b.length ≤ 100) ∧
    (∀ (r : List Watch) (i : List String) (sub : Nat → Except Err Unit)
        (res : UploadPricesS), upload_pricesS r i sub = .ok res →
        ∀ b ∈ res.batches, b.length ≤ 1000) ∧
    (∀ (r : List Watch) (i : List String) (subS subP : Nat → Except Err Unit)
        (res : MainRunS), main_flowS r i subS subP = .ok res →
        (∀ b ∈ res.stockBatches, b.length ≤ 100) ∧
        (∀ b ∈ res.priceBatches, b.length ≤ 900)) ∧
    (∀ (r : List Watch) (i : List String) (w d : String)
        (sub : Nat → Except Err Unit) (res : UploadStocksM),
        upload_stocksM r i w d sub = .ok res →
        ∀ b ∈ res.batches, b.length ≤ 2000) ∧
    (∀ (r : List Watch) (i : List String) (sub : Nat → Except Err Unit)
        (res : UploadPricesM), upload_pricesM r i sub = .ok res →
        ∀ b ∈ res.batches, b.length ≤ 500) := by
  refine ⟨?_, ?_, ?_, ?_, ?_⟩
  · intro r i sub res h
    simp only [upload_stocksS] at h
    split at h
    · exact Except.noConfusion h
    · split at h
      · exact Except.noConfusion h
      · split at h
        · exact Except.noConfusion h
        · rename_i xa stocks rest heqcs xb batches heqdiv xc heqrun
          have h2 := Except.ok.inj h
          intro b hb
          rw [← h2] at hb
          have hb2 : b ∈ batches := hb
          exact divide_chunk_length_le stocks 100 (by omega) batches heqdiv b hb2
  · intro r i sub res h
    simp only [upload_pricesS] at h
    split at h
    · exact Except.noConfusion h
    · split at h
      · exact Except.noConfusion h
      · rename_i xa batches heqdiv xb heqrun
        have h2 := Except.ok.inj h
        intro b hb
        rw [← h2] at hb
        have hb2 : b ∈ batches := hb
        exact divide_chunk_length_le (create_prices r i) 1000 (by omega)
          batches heqdiv b hb2
  · intro r i subS subP res h
    simp only [main_flowS] at h
    split at h
    · exact Except.noConfusion h
    · split at h
      · exact Except.noConfusion h
      · split at h
        · exact Except.noConfusion h
        · split at h
          · exact Except.noConfusion h
          · split at h
            · exact Except.noConfusion h
            · rename_i xa stocks rest heqcs xb sb heqdiv xc heqrunS xd pb
                heqdivP xe heqrunP
              have h2 := Except.ok.inj h
              constructor
              · intro b hb
                rw [← h2] at hb
                have hb2 : b ∈ sb := hb
                exact divide_chunk_length_le stocks 100 (by omega) sb heqdiv b hb2
              · intro b hb
                rw [← h2] at hb
                have hb2 : b ∈ pb := hb
                exact divide_chunk_length_le (create_prices r rest) 900
                  (by omega) pb heqdivP b hb2
  · intro r i w d sub res h
    simp only [upload_stocksM] at h
    split at h
    · exact Except.noConfusion h
    · split at h
      · exact Except.noConfusion h
      · split at h
        · exact Except.noConfusion h
        · rename_i xa stocks rest heqcs xb batches heqdiv xc heqrun
          have h2 := Except.ok.inj h
          intro b hb
          rw [← h2] at hb
          have hb2 : b ∈ batches := hb
          exact divide_chunk_length_le stocks 2000 (by omega) batches heqdiv b hb2
  · intro r i sub res h
    simp only [upload_pricesM] at h
    split at h
    · exact Except.noConfusion h
    · split at h
      · exact Except.noConfusion h
      · split at h
        · exact Except.noConfusion h
        · rename_i xa prices heqcp xb batches heqdiv xc heqrun
          have h2 := Except.ok.inj h
          intro b hb
          rw [← h2] at hb
          have hb2 : b ∈ batches := hb
          exact divide_chunk_length_le prices 500 (by omega) batches heqdiv b hb2

/-- Witness for C9: every upload entry point evaluated on an empty feed
and catalog, where each computes an empty batch list. -/
theorem configured_batch_ceilings_witness :
    (∀ b ∈ (⟨[], ⟨[], none⟩, [], []⟩ : UploadStocksS).batches, b.length ≤ 100) ∧
    (∀ b ∈ (⟨[], ⟨[], none⟩, []⟩ : UploadPricesS).batches, b.length ≤ 1000) ∧
    (∀ b ∈ (⟨[], [], ⟨[], none⟩, [], [], ⟨[], none⟩⟩ : MainRunS).stockBatches,
      b.length ≤ 100) ∧
    (∀ b ∈ (⟨[], ⟨[], none⟩, [], []⟩ : UploadStocksM).batches, b.length ≤ 2000) ∧
    (∀ b ∈ (⟨[], ⟨[], none⟩, []⟩ : UploadPricesM).batches, b.length ≤ 500) := by
  refine ⟨?_, ?_, ?_, ?_, ?_⟩
  · exact configured_batch_ceilings.1 [] [] submitOk _ (by decide)
  · exact configured_batch_ceilings.2.1 [] [] submitOk _ (by decide)
  · exact (configured_batch_ceilings.2.2.1 [] [] submitOk submitOk _ (by decide)).1
  · exact configured_batch_ceilings.2.2.2.1 [] [] "w" "d" submitOk _ (by decide)
  · exact configured_batch_ceilings.2.2.2.2 [] [] submitOk _ (by decide)

theorem create_prices_nil :
    ∀ (ws : List Watch) (ids : List String),
      (∀ w ∈ ws, w.code ∉ ids) → create_prices ws ids = [] := by
  intro ws
  induction ws with
  | nil => intro ids _; rfl
  | cons w ws ih =>
    intro ids hno
    rw [create_prices, if_neg (hno w (List.mem_cons_self _ _))]
    exact ih ids (fun w2 hw2 => hno w2 (List.mem_cons_of_mem _ hw2))

/-- C10: the scripted Ozon flow (`main` of src/seller.py) passes the
same `offer_ids` list to `create_stocks`, which destructively removes
every matched id, and then to `create_prices`.  For a supplier feed
without duplicate item codes and a catalog id list with
pairwise-distinct entries (spec section 3: an offer id is unique per
catalog entry), every id still in the list after the stock step has no
supplier record, so the price list built by the flow is empty and no
price update is ever submitted — unlike the reusable `upload_prices`,
which fetches a fresh offer-id list before building prices. -/
theorem main_flow_prices_empty
    (remnants : List Watch) (ids : List String)
    (submitS submitP : Nat → Except Err Unit) (r : MainRunS)
    (_hfeed : (remnants.map Watch.code).Nodup) (hnd : ids.Nodup)
    (h : main_flowS remnants ids submitS submitP = .ok r) :
    r.prices = [] ∧ r.priceRun.calls = [] := by
  simp only [main_flowS] at h
  split at h
  · exact Except.noConfusion h
  · split at h
    · exact Except.noConfusion h
    · split at h
      · exact Except.noConfusion h
      · split at h
        · exact Except.noConfusion h
        · split at h
          · exact Except.noConfusion h
          · rename_i xa stocks rest heqcs xb sb heqdiv xc heqrunS xd pb
              heqdivP xe heqrunP
            have hrest : ∀ w ∈ remnants, w.code ∉ rest := by
              rw [create_stocks] at heqcs
              cases hr : create_stocksLoop remnants ids with
              | error e => rw [hr] at heqcs; exact Except.noConfusion heqcs
              | ok pr2 =>
                obtain ⟨st, rest0⟩ := pr2
                rw [hr] at heqcs
                have h2 : (Except.ok
                    (st ++ rest0.map (fun i => (⟨i, 0⟩ : StockS)), rest0)
                    : Except Err _) = .ok (stocks, rest) := heqcs
                simp only [Except.ok.injEq, Prod.mk.injEq] at h2
                obtain ⟨_, h4⟩ := h2
                subst h4
                have b4 := (create_stocksLoop_nodup remnants ids st _ hnd hr).2.2.2
                intro w hw hin
                exact b4 _ hin w hw rfl
            have hpe : create_prices remnants rest = [] :=
              create_prices_nil remnants rest hrest
            rw [hpe] at heqdivP
            have hpb : pb = ([] : List (List PriceS)) := by
              have hdone : divide ([] : List PriceS) 900
                  = .ok ([] : List (List PriceS)) := rfl
              rw [hdone] at heqdivP
              exact (Except.ok.inj heqdivP).symm
            have h2 := Except.ok.inj h
            rw [← h2]
            constructor
            · show create_prices remnants rest = []
              exact hpe
            · show (runBatches submitP pb).calls = []
              rw [hpb]
              rfl

/-- Witness for C10: a one-record feed matching catalog id "A" with
leftover id "B"; the scripted flow produces an empty price list and
issues no price submission. -/
theorem main_flow_prices_empty_witness :
    MainRunS.prices ⟨[⟨"A", 5⟩, ⟨"B", 0⟩], [[⟨"A", 5⟩, ⟨"B", 0⟩]],
        ⟨[[⟨"A", 5⟩, ⟨"B", 0⟩]], none⟩, [], [], ⟨[], none⟩⟩ = [] ∧
    (MainRunS.priceRun ⟨[⟨"A", 5⟩, ⟨"B", 0⟩], [[⟨"A", 5⟩, ⟨"B", 0⟩]],
        ⟨[[⟨"A", 5⟩, ⟨"B", 0⟩]], none⟩, [], [], ⟨[], none⟩⟩).calls = [] :=
  main_flow_prices_empty [⟨"A", "5", "6"⟩] ["A", "B"] submitOk submitOk
    ⟨[⟨"A", 5⟩, ⟨"B", 0⟩], [[⟨"A", 5⟩, ⟨"B", 0⟩]],
      ⟨[[⟨"A", 5⟩, ⟨"B", 0⟩]], none⟩, [], [], ⟨[], none⟩⟩
    (by decide) (by decide) (by decide)

theorem create_stocksLoopM_bridge (wid date : String) :
    ∀ (ws : List Watch) (ids : List String),
      create_stocksLoopM wid date ws ids
        = (create_stocksLoop ws ids).map
            (fun p => (p.1.map
              (fun u => (⟨u.offer_id, wid, u.stock, "FIT", date⟩ : StockM)), p.2)) := by
  intro ws
  induction ws with
  | nil => intro ids; rfl
  | cons w ws ih =>
    intro ids
    rw [create_stocksLoopM, create_stocksLoop]
    by_cases hm : w.code ∈ ids
    · rw [if_pos hm, if_pos hm]
      cases hn : normalizeQuantity w.quantity with
      | error e => rfl
      | ok n =>
        rw [ih (ids.erase w.code)]
        cases hr : create_stocksLoop ws (ids.erase w.code) with
        | error e => rfl
        | ok pr =>
          obtain ⟨st2, rest2⟩ := pr
          rfl
    · rw [if_neg hm, if_neg hm]
      exact ih ids

theorem create_stocksM_bridge (wid date : String) (ws : List Watch)
    (ids : List String) :
    create_stocksM ws ids wid date
      = (create_stocks ws ids).map
          (fun p => (p.1.map
            (fun u => (⟨u.offer_id, wid, u.stock, "FIT", date⟩ : StockM)), p.2)) := by
  rw [create_stocksM, create_stocksLoopM_bridge wid date ws ids, create_stocks]
  cases hr : create_stocksLoop ws ids with
  | error e => rfl
  | ok pr =>
    obtain ⟨st, rest⟩ := pr
    simp only [Except.map, List.map_append, List.map_map]
    rfl

theorem market_stocks_completeness
    (wid date : String) (remnants : List Watch) (ids : List String)
    (stocks : List StockM) (rest : List String) (hnd : ids.Nodup)
    (h : create_stocksM remnants ids wid date = .ok (stocks, rest)) :
    (∀ i ∈ ids, stocks.countP (fun u => decide (u.sku = i)) = 1) ∧
    (∀ u ∈ stocks, u.sku ∈ ids) ∧
    (∀ u ∈ stocks,
      (∃ w ∈ remnants, w.code = u.sku ∧
        normalizeQuantity w.quantity = .ok u.count) ∨
      ((∀ w ∈ remnants, w.code ≠ u.sku) ∧ u.count = 0)) := by
  rw [create_stocksM_bridge] at h
  cases hcs : create_stocks remnants ids with
  | error e => rw [hcs] at h; exact Except.noConfusion h
  | ok pr =>
    obtain ⟨stS, restS⟩ := pr
    rw [hcs] at h
    have h2 : (Except.ok (stS.map
        (fun u => (⟨u.offer_id, wid, u.stock, "FIT", date⟩ : StockM)), restS)
        : Except Err _) = .ok (stocks, rest) := h
    simp only [Except.ok.injEq, Prod.mk.injEq] at h2
    obtain ⟨h3, h4⟩ := h2
    subst h3; subst h4
    obtain ⟨c1, c2, c3⟩ := seller_stocks_completeness remnants ids stS _ hnd hcs
    refine ⟨?_, ?_, ?_⟩
    · intro i hi
      rw [List.countP_map]
      exact c1 i hi
    · intro u hu
      obtain ⟨v, hv, he⟩ := List.mem_map.mp hu
      have he2 : u.sku = v.offer_id := by rw [← he]
      rw [he2]
      exact c2 v hv
    · intro u hu
      obtain ⟨v, hv, he⟩ := List.mem_map.mp hu
      have hsku : u.sku = v.offer_id := by rw [← he]
      have hcount : u.count = v.stock := by rw [← he]
      rcases c3 v hv with ⟨w, hw, hc, hq⟩ | ⟨hno, hz⟩
      · exact Or.inl ⟨w, hw, by rw [hsku]; exact hc, by rw [hcount]; exact hq⟩
      · refine Or.inr ⟨?_, by rw [hcount]; exact hz⟩
        intro w hw
        rw [hsku]
        exact hno w hw

/-- C1: reconciliation completeness.  For pairwise-distinct catalog
offer ids and any supplier records, the stock-update list produced by
`create_stocks` — in the Ozon version of src/seller.py and in the Yandex
Market version of src/market.py alike — contains exactly one entry per
catalog id, every entry is for a catalog id, and each entry either
carries the normalized quantity of a supplier record with that code
(matched) or count 0 when no supplier record carries the code
(unmatched): no id omitted, no id duplicated. -/
theorem reconciliation_completeness :
    (∀ (remnants : List Watch) (ids : List String) (stocks : List StockS)
        (rest : List String), ids.Nodup →
      create_stocks remnants ids = .ok (stocks, rest) →
      (∀ i ∈ ids, stocks.countP (fun u => decide (u.offer_id = i)) = 1) ∧
      (∀ u ∈ stocks, u.offer_id ∈ ids) ∧
      (∀ u ∈ stocks,
        (∃ w ∈ remnants, w.code = u.offer_id ∧
          normalizeQuantity w.quantity = .ok u.stock) ∨
        ((∀ w ∈ remnants, w.code ≠ u.offer_id) ∧ u.stock = 0))) ∧
    (∀ (wid date : String) (remnants : List Watch) (ids : List String)
        (stocks : List StockM) (rest : List String), ids.Nodup →
      create_stocksM remnants ids wid date = .ok (stocks, rest) →
      (∀ i ∈ ids, stocks.countP (fun u => decide (u.sku = i)) = 1) ∧
      (∀ u ∈ stocks, u.sku ∈ ids) ∧
      (∀ u ∈ stocks,
        (∃ w ∈ remnants, w.code = u.sku ∧
          normalizeQuantity w.quantity = .ok u.count) ∨
        ((∀ w ∈ remnants, w.code ≠ u.sku) ∧ u.count = 0))) :=
  ⟨fun remnants ids stocks rest hnd h =>
      seller_stocks_completeness remnants ids stocks rest hnd h,
    fun wid date remnants ids stocks rest hnd h =>
      market_stocks_completeness wid date remnants ids stocks rest hnd h⟩

/-- Witness for C1: the end-to-end scenario of the spec, catalog ids
["A", "B", "C"] and supplier records matching "A" and "C", evaluated on
both marketplace variants. -/
theorem reconciliation_completeness_witness :
    ((∀ i ∈ ["A", "B", "C"],
      ([⟨"A", 100⟩, ⟨"C", 0⟩, ⟨"B", 0⟩] : List StockS).countP
        (fun u => decide (u.offer_id = i)) = 1) ∧
    (∀ u ∈ ([⟨"A", 100⟩, ⟨"C", 0⟩, ⟨"B", 0⟩] : List StockS),
      u.offer_id ∈ ["A", "B", "C"]) ∧
    (∀ u ∈ ([⟨"A", 100⟩, ⟨"C", 0⟩, ⟨"B", 0⟩] : List StockS),
      (∃ w ∈ [(⟨"A", ">10", "1\x27000.00 руб."⟩ : Watch),
              ⟨"C", "1", "2\x27500.00 руб."⟩],
        w.code = u.offer_id ∧ normalizeQuantity w.quantity = .ok u.stock) ∨
      ((∀ w ∈ [(⟨"A", ">10", "1\x27000.00 руб."⟩ : Watch),
               ⟨"C", "1", "2\x27500.00 руб."⟩], w.code ≠ u.offer_id) ∧
        u.stock = 0))) ∧
    ((∀ i ∈ ["A", "B", "C"],
      ([⟨"A", "w", 100, "FIT", "d"⟩, ⟨"C", "w", 0, "FIT", "d"⟩,
        ⟨"B", "w", 0, "FIT", "d"⟩] : List StockM).countP
        (fun u => decide (u.sku = i)) = 1) ∧
    (∀ u ∈ ([⟨"A", "w", 100, "FIT", "d"⟩, ⟨"C", "w", 0, "FIT", "d"⟩,
        ⟨"B", "w", 0, "FIT", "d"⟩] : List StockM), u.sku ∈ ["A", "B", "C"]) ∧
    (∀ u ∈ ([⟨"A", "w", 100, "FIT", "d"⟩, ⟨"C", "w", 0, "FIT", "d"⟩,
        ⟨"B", "w", 0, "FIT", "d"⟩] : List StockM),
      (∃ w ∈ [(⟨"A", ">10", "1\x27000.00 руб."⟩ : Watch),
              ⟨"C", "1", "2\x27500.00 руб."⟩],
        w.code = u.sku ∧ normalizeQuantity w.quantity = .ok u.count) ∨
      ((∀ w ∈ [(⟨"A", ">10", "1\x27000.00 руб."⟩ : Watch),
               ⟨"C", "1", "2\x27500.00 руб."⟩], w.code ≠ u.sku) ∧
        u.count = 0))) :=
  ⟨reconciliation_completeness.1
      [⟨"A", ">10", "1\x27000.00 руб."⟩, ⟨"C", "1", "2\x27500.00 руб."⟩]
      ["A", "B", "C"] [⟨"A", 100⟩, ⟨"C", 0⟩, ⟨"B", 0⟩] ["B"]
      (by decide) (by decide),
    reconciliation_completeness.2 "w" "d"
      [⟨"A", ">10", "1\x27000.00 руб."⟩, ⟨"C", "1", "2\x27500.00 руб."⟩]
      ["A", "B", "C"]
      [⟨"A", "w", 100, "FIT", "d"⟩, ⟨"C", "w", 0, "FIT", "d"⟩,
        ⟨"B", "w", 0, "FIT", "d"⟩] ["B"]
      (by decide) (by decide)⟩

end SellerApis
